import Mathlib

/-!
Verification development for `tropes.py`: a shallow embedding of the
incremental category walker (`category_members`), the identity resolver
(`category_page`), the membership store (`upsert_category_members`) and
the hierarchy resolver (`show_hierachy2`), together with theorems that
settle the specification's claims against this embedding.

Conventions of the embedding:
* Python `dict`s become insertion-ordered association lists;
* Python `set`s become duplicate-free lists with explicit union / filter
  operations (order is the insertion order of the modelling folds);
* the remote API is a finite list of responses consumed in order; one
  consumed response is one issued request;
* a transport or JSON-decode failure is the response constructor
  `Resp.err` (in Python: an exception from `urlopen` / `json.loads`).
-/

/-- A wiki page identity: `(pageid, title)`, as in `Page = Tuple[int, str]`. -/
abbrev Page := Nat × String

/-- `p.data.isPrefixOf s.data`: model of Python `s.startswith(p)`
(character-level, as Python strings are sequences of code points). -/
def strStarts (s p : String) : Bool :=
  p.data.isPrefixOf s.data

/-- Model of Python `s.endswith(p)`. -/
def strEnds (s p : String) : Bool :=
  p.data.reverse.isPrefixOf s.data.reverse

/-- Model of Python `s.removeprefix(p)`: drop `p` from the front of `s`
when `s` starts with `p`, otherwise return `s` unchanged. -/
def removePfx (s p : String) : String :=
  if strStarts s p then String.mk (s.data.drop p.data.length) else s

/-- Add an element to a duplicate-free list (Python `set.add`). -/
def listInsert (xs : List Page) (x : Page) : List Page :=
  if x ∈ xs then xs else xs ++ [x]

/-- Union of two page sets (Python `set.update` / `set.union`). -/
def listUnion (xs ys : List Page) : List Page :=
  ys.foldl listInsert xs

/-- A `Members` snapshot: insertion-ordered mapping from member page to its
set of resolved parent-category pages (`Members = Mapping[Page, Pages]`,
realised in the source as `defaultdict(set)`). -/
abbrev Snapshot := List (Page × List Page)

/-- `members[k].update(cs)` on a `defaultdict(set)`: if the key exists,
union `cs` into its value in place; otherwise create the entry (even when
`cs` is empty, as the `defaultdict` access does). -/
def snapUpdate : Snapshot → Page → List Page → Snapshot
  | [], k, cs => [(k, listUnion [] cs)]
  | e :: rest, k, cs =>
    if e.1 = k then (e.1, listUnion e.2 cs) :: rest
    else e :: snapUpdate rest k cs

/-- Value of a snapshot at a key, defaulting to the empty set. -/
def snapGetD : Snapshot → Page → List Page
  | [], _ => []
  | e :: rest, k => if e.1 = k then e.2 else snapGetD rest k

/-- The keys of a snapshot. -/
def snapKeys (ms : Snapshot) : List Page :=
  ms.map Prod.fst

/-- One entry of a response's `categories` property (only the `title`
field is consumed by the source). -/
structure CatRef where
  title : String
deriving DecidableEq

/-- One entry of `query.pages` in a crawl response. A missing
`categories` property is the empty list (`page.get('categories', [])`). -/
structure MemberPage where
  pageid : Nat
  title : String
  categories : List CatRef
deriving DecidableEq

/-- The `query` object of a crawl response; `pages` may be absent. -/
structure QueryVal where
  pages : Option (List MemberPage)
deriving DecidableEq

/-- A decoded crawl response body: optional `query`, the
`batchcomplete` flag, and the optional `continue` token. -/
structure RespBody where
  query : Option QueryVal
  batchcomplete : Bool
  cont : Option (List (String × String))
deriving DecidableEq

/-- A response as observed by the walker: either a transport/JSON-decode
failure (an exception from `urlopen` / `json.loads`) or a decoded body. -/
inductive Resp where
  | err : Resp
  | ok : RespBody → Resp
deriving DecidableEq

/-- The pages carried by a response body (`[]` when `query` or
`query.pages` is absent). -/
def pagesOf (b : RespBody) : List MemberPage :=
  match b.query with
  | none => []
  | some q => q.pages.getD []

/-- Resolved, non-excluded parent-category set of one member page:
map each raw category title through `removeprefix('Category:')`, resolve
it via the identity resolver (dropping unresolvable names), and remove
excluded pages — lines 174-177 of the source. -/
def processPage (resolve : String → Option Page) (exclude : List Page)
    (p : MemberPage) : List Page :=
  (((p.categories.map (fun c => removePfx c.title "Category:")).filterMap
      resolve).foldl listInsert []).filter (fun x => x ∉ exclude)

/-- Fold one response body into the accumulating snapshot: for every page
of `query.pages`, union its resolved non-excluded parent set into the
accumulator; a response without `query` (or without `pages`) contributes
nothing (the source merely prints it). -/
def applyBody (resolve : String → Option Page) (exclude : List Page)
    (ms : Snapshot) (b : RespBody) : Snapshot :=
  (pagesOf b).foldl
    (fun acc q => snapUpdate acc (q.pageid, q.title) (processPage resolve exclude q))
    ms

/-- Lookup of a request-parameter value by key (first matching entry;
the modelled parameter dictionaries have unique keys). -/
def paramLookup : List (String × String) → String → Option String
  | [], _ => none
  | e :: rest, k => if e.1 = k then some e.2 else paramLookup rest k

/-- `dict.update` for one key/value pair: replace the value in place when
the key is present, append otherwise. -/
def updParam : List (String × String) → String × String → List (String × String)
  | [], kv => [kv]
  | e :: rest, kv =>
    if e.1 = kv.1 then (e.1, kv.2) :: rest else e :: updParam rest kv

/-- Lines 193-194 of the source: drop every parameter whose key ends in
`continue`, then merge the continuation token in (`dict.update`). -/
def mergeContinue (ps : List (String × String))
    (token : List (String × String)) : List (String × String) :=
  token.foldl updParam (ps.filter (fun e => !strEnds e.1 "continue"))

/-- The loop guard `max_members == None or num_members < max_members`. -/
def continueLoop : Option Int → Nat → Bool
  | none, _ => true
  | some m, n => decide ((n : Int) < m)

/-- Observable outcome of running the walker against a finite response
sequence: the snapshots yielded, the parameters of each issued request
(in order), and whether the run ended by propagating an exception. -/
structure WalkResult where
  yields : List Snapshot
  reqs : List (List (String × String))
  failed : Bool
deriving DecidableEq

/-- The walker loop of `category_members` (lines 165-194): one consumed
response per issued request; accumulate per-page category sets; on
`batchcomplete` bump the running total by the snapshot size and yield;
terminate when the response carries no `continue` token; otherwise merge
the token into the next request's parameters and loop. -/
def walkAux (resolve : String → Option Page) (exclude : List Page)
    (maxM : Option Int) :
    List Resp → Snapshot → Nat → List (String × String) → WalkResult
  | [], _, _, _ => ⟨[], [], false⟩
  | .err :: _, _, n, p =>
    if continueLoop maxM n then ⟨[], [p], true⟩ else ⟨[], [], false⟩
  | .ok b :: rest, ms, n, p =>
    if continueLoop maxM n then
      let ms1 := applyBody resolve exclude ms b
      if b.batchcomplete then
        match b.cont with
        | none => ⟨[ms1], [p], false⟩
        | some t =>
          let r := walkAux resolve exclude maxM rest [] (n + ms1.length)
            (mergeContinue p t)
          ⟨ms1 :: r.yields, p :: r.reqs, r.failed⟩
      else
        match b.cont with
        | none => ⟨[], [p], false⟩
        | some t =>
          let r := walkAux resolve exclude maxM rest ms1 n (mergeContinue p t)
          ⟨r.yields, p :: r.reqs, r.failed⟩
    else ⟨[], [], false⟩

/-- Clamp a limit into `[10, 500]` (`max(10, min(x, 500))`). -/
def clampLim (v : Int) : Int :=
  max 10 (min v 500)

/-- `if max_members != None and max_members <= 0: max_members = None`. -/
def normalizeMax : Option Int → Option Int
  | none => none
  | some m => if m ≤ 0 then none else some m

/-- The initial `query_params` of `category_members` (lines 142-153). -/
def initialParams (category : String) (g c : Int) : List (String × String) :=
  [("action", "query"), ("format", "json"), ("formatversion", "2"),
   ("generator", "categorymembers"), ("gcmtitle", "Category:" ++ category),
   ("gcmlimit", toString g), ("gcmtype", "subcat|page"),
   ("prop", "categories"), ("cllimit", toString c), ("maxlag", "1")]

/-- The walker `category_members`, run against a finite sequence of
responses: normalize `max_members`, clamp the limits, and execute the
request loop starting from an empty accumulator and zero running total. -/
def category_members (resolve : String → Option Page) (exclude : List Page)
    (category : String) (maxMembers : Option Int) (gcmlimit cllimit : Int)
    (resps : List Resp) : WalkResult :=
  walkAux resolve exclude (normalizeMax maxMembers) resps [] 0
    (initialParams category (clampLim gcmlimit) (clampLim cllimit))

/-- Refinement reference for batch gating, following the spec's words:
group the consumed responses at each `batchcomplete: true` signal, one
yielded snapshot per completed batch, each snapshot accumulating every
response's per-page category sets since the previous completion; an
in-progress accumulator at termination is not emitted. -/
def batchYieldsSpec (resolve : String → Option Page) (exclude : List Page) :
    Snapshot → List RespBody → List Snapshot
  | _, [] => []
  | ms, b :: rest =>
    let ms1 := applyBody resolve exclude ms b
    if b.batchcomplete then
      ms1 :: (if b.cont.isSome then batchYieldsSpec resolve exclude [] rest else [])
    else
      (if b.cont.isSome then batchYieldsSpec resolve exclude ms1 rest else [])

/-- The contribution of one response body to the category set of member
page `pg`: some page entry of the body has identity `pg` and resolves
`x` into its parent set. -/
def bodyContrib (resolve : String → Option Page) (exclude : List Page)
    (b : RespBody) (pg x : Page) : Prop :=
  ∃ q ∈ pagesOf b, (q.pageid, q.title) = pg ∧ x ∈ processPage resolve exclude q

/-- One entry of `query.pages` in an `allcategories` lookup response;
`missing` is true when the page carries the `missing` flag. -/
structure AcPage where
  pageid : Nat
  title : String
  missing : Bool
deriving DecidableEq

/-- The `query` object of a lookup response; `pages` may be absent. -/
structure AcQuery where
  pages : Option (List AcPage)
deriving DecidableEq

/-- A decoded `allcategories` lookup response; `query` may be absent. -/
structure AcResp where
  query : Option AcQuery
deriving DecidableEq

/-- The `query_params` of `category_page` (lines 82-90): the from/to
range is the exact category name. -/
def category_page_params (category : String) : List (String × String) :=
  [("action", "query"), ("format", "json"), ("formatversion", "2"),
   ("generator", "allcategories"), ("gacfrom", category),
   ("gacto", category), ("maxlag", "1")]

/-- The result extraction of `category_page` (lines 96-103): return the
`(pageid, title)` of the single returned page unless `query` or `pages`
is absent, the page list does not have exactly one element, or the single
page is marked missing. -/
def category_page (resp : AcResp) : Option Page :=
  match resp.query with
  | none => none
  | some q =>
    match q.pages with
    | none => none
    | some pages =>
      match pages with
      | [p] => if p.missing then none else some (p.pageid, p.title)
      | _ => none

/-- The remote result set of a lookup response (`[]` when `query` or
`pages` is absent). -/
def acResultSet (resp : AcResp) : List AcPage :=
  match resp.query with
  | none => []
  | some q => q.pages.getD []

/-- The persistent store: the `tropes` and `categories` id→title tables
(insertion-ordered rows, unique ids) and the `members` edge table. -/
structure Store where
  tropes : List (Nat × String)
  categories : List (Nat × String)
  members : List (Nat × Nat)
deriving DecidableEq

/-- Lookup a row's title by id (first matching row). -/
def rowLookup : List (Nat × String) → Nat → Option String
  | [], _ => none
  | r :: rest, id => if r.1 = id then some r.2 else rowLookup rest id

/-- `INSERT ... ON CONFLICT(id) DO UPDATE SET title=title`: insert the
row when the id is new; on conflict keep the existing row unchanged
(in SQLite an unqualified column in `DO UPDATE` denotes the existing
row's value, so `title=title` preserves the stored title). -/
def upsertRow (t : List (Nat × String)) (id : Nat) (title : String) :
    List (Nat × String) :=
  match rowLookup t id with
  | some _ => t
  | none => t ++ [(id, title)]

/-- `INSERT ... ON CONFLICT(category_id, member_id) DO NOTHING`. -/
def insertEdge (es : List (Nat × Nat)) (c m : Nat) : List (Nat × Nat) :=
  if (c, m) ∈ es then es else es ++ [(c, m)]

/-- The inner loop over a member's parent categories (lines 228-231):
upsert each parent's id→title row into `categories` (title with the
`Category:` prefix stripped), then upsert the membership edge. -/
def upsertParents (mid : Nat) (st : Store) (cats : List Page) : Store :=
  cats.foldl
    (fun s c =>
      { s with
        categories := upsertRow s.categories c.1 (removePfx c.2 "Category:"),
        members := insertEdge s.members c.1 mid })
    st

/-- Processing of one snapshot entry (lines 221-231): upsert the member's
own id→title row — into `categories` (prefix stripped) when its title
starts with `Category:`, into `tropes` otherwise — then upsert all its
parent rows and edges. -/
def upsertMember (st : Store) (e : Page × List Page) : Store :=
  let st1 :=
    if strStarts e.1.2 "Category:" then
      { st with categories := upsertRow st.categories e.1.1 (removePfx e.1.2 "Category:") }
    else
      { st with tropes := upsertRow st.tropes e.1.1 e.1.2 }
  upsertParents e.1.1 st1 e.2

/-- `upsert_category_members` (lines 198-233): fold every snapshot entry
into the store (the `CREATE TABLE IF NOT EXISTS` statements are no-ops on
the modelled store, whose tables always exist). -/
def upsert_category_members (ms : Snapshot) (st : Store) : Store :=
  ms.foldl upsertMember st

/-- One SQL statement issued by `upsert_category_members`, in issue
order; `commit` is `connection.commit()`. -/
inductive Stmt where
  | createTropes : Stmt
  | createCategories : Stmt
  | createMembers : Stmt
  | upCategory : Nat → String → Stmt
  | upTrope : Nat → String → Stmt
  | upEdge : Nat → Nat → Stmt
  | commit : Stmt
deriving DecidableEq

/-- Statements issued for one snapshot entry. -/
def entryStmts (e : Page × List Page) : List Stmt :=
  (if strStarts e.1.2 "Category:" then
    [Stmt.upCategory e.1.1 (removePfx e.1.2 "Category:")]
   else [Stmt.upTrope e.1.1 e.1.2]) ++
  e.2.foldr
    (fun c a => Stmt.upCategory c.1 (removePfx c.2 "Category:") :: Stmt.upEdge c.1 e.1.1 :: a)
    []

/-- The full statement trace of `upsert_category_members` for one
snapshot: table creation, per-entry upserts, then a single final commit. -/
def upsertStmts (ms : Snapshot) : List Stmt :=
  [Stmt.createTropes, Stmt.createCategories, Stmt.createMembers] ++
    ms.foldr (fun e a => entryStmts e ++ a) [] ++ [Stmt.commit]

/-- Effect of one statement on the (pending) store state; the creates
are no-ops because the modelled store's tables always exist. -/
def execStmt (st : Store) : Stmt → Store
  | .createTropes => st
  | .createCategories => st
  | .createMembers => st
  | .upCategory id t => { st with categories := upsertRow st.categories id t }
  | .upTrope id t => { st with tropes := upsertRow st.tropes id t }
  | .upEdge c m => { st with members := insertEdge st.members c m }
  | .commit => st

/-- Outcome of a transactional run: `ok` with the durable store on a
normal return, `err` with the durable store when a statement raised (the
connection is closed without commit, rolling the transaction back). -/
inductive TxnOut where
  | ok : Store → TxnOut
  | err : Store → TxnOut
deriving DecidableEq

/-- Transactional execution of a statement list: `d` is the durable
store, `pend` the pending (uncommitted) state, `f i = true` means the
`i`-th statement fails. Writes become durable only at `commit`; a
failure aborts with the durable store as it stands. -/
def runStmts (f : Nat → Bool) : Store → Store → Nat → List Stmt → TxnOut
  | d, _, _, [] => .ok d
  | d, pend, i, s :: rest =>
    if f i then .err d
    else
      match s with
      | .commit => runStmts f pend pend (i + 1) rest
      | _ => runStmts f d (execStmt pend s) (i + 1) rest

/-- A row of the recursive `member_hierarchy` CTE of `show_hierachy2`:
`(iter, category_id, category_title, member_id, path)`. -/
structure HRow where
  iter : Nat
  category_id : Option Nat
  category_title : Option String
  member_id : Nat
  path : String
deriving DecidableEq

/-- The initial select of `show_hierachy2` (lines 432-447): categories
with no incoming membership edge whose outgoing fan-out exceeds
`min_members`. -/
def rootRows (st : Store) (min_members : Nat) : List HRow :=
  (st.categories.filter
      (fun c =>
        st.members.all (fun e => e.2 ≠ c.1) &&
        decide (min_members < (st.members.filter (fun e => e.1 = c.1)).length))).map
    (fun c => ⟨1, none, none, c.1, c.2⟩)

/-- The first recursive select (lines 452-462): move down to member
pages that are themselves categories, separator `->`. -/
def childRowsCat (st : Store) (r : HRow) : List HRow :=
  st.members.filterMap
    (fun e =>
      if e.1 = r.member_id then
        match rowLookup st.categories e.1, rowLookup st.categories e.2 with
        | some ct, some mt =>
          some ⟨r.iter + 1, some e.1, some ct, e.2, r.path ++ "->" ++ mt⟩
        | _, _ => none
      else none)

/-- The second recursive select (lines 466-476): move down to member
pages that are tropes, separator `=>`. -/
def childRowsTrope (st : Store) (r : HRow) : List HRow :=
  st.members.filterMap
    (fun e =>
      if e.1 = r.member_id then
        match rowLookup st.categories e.1, rowLookup st.tropes e.2 with
        | some ct, some mt =>
          some ⟨r.iter + 1, some e.1, some ct, e.2, r.path ++ "=>" ++ mt⟩
        | _, _ => none
      else none)

/-- Both recursive-select branches (`UNION ALL`). -/
def hStep (st : Store) (r : HRow) : List HRow :=
  childRowsCat st r ++ childRowsTrope st r

/-- SQLite's evaluation of a recursive CTE with `LIMIT`: a work queue
seeded by the initial select; each dequeued row is appended to the result
and its recursive-select rows are enqueued; evaluation stops when the
queue is empty or the result has reached the row budget. -/
def cteRun (step : HRow → List HRow) : Nat → List HRow → List HRow
  | 0, _ => []
  | _ + 1, [] => []
  | n + 1, r :: q => r :: cteRun step n (q ++ step r)

/-- `show_hierachy2` (lines 398-494): run the recursive CTE with row
budget `limit` from the qualifying root categories; the outer select
returns the CTE's rows unchanged. -/
def show_hierachy2 (st : Store) (limit min_members : Nat) : List HRow :=
  cteRun (hStep st) limit (rootRows st min_members)

/-- A resolver that resolves nothing (used by concrete witnesses). -/
def resolveNone : String → Option Page :=
  fun _ => none

/-- A small concrete resolver for witnesses: `A ↦ (100, "Category:A")`,
`B ↦ (200, "Category:B")`, `X ↦ (300, "Category:X")`, otherwise absent. -/
def resolveABX : String → Option Page :=
  fun s =>
    if s = "A" then some (100, "Category:A")
    else if s = "B" then some (200, "Category:B")
    else if s = "X" then some (300, "Category:X")
    else none

/-- Witness input: a batch-completing response with three member pages
and a continuation. -/
def batch3 : RespBody :=
  ⟨some ⟨some [⟨11, "P1", []⟩, ⟨12, "P2", []⟩, ⟨13, "P3", []⟩]⟩, true,
    some [("gcmcontinue", "a")]⟩

/-- Witness input: a batch-completing response with four member pages
and a continuation. -/
def batch4 : RespBody :=
  ⟨some ⟨some [⟨14, "P4", []⟩, ⟨15, "P5", []⟩, ⟨16, "P6", []⟩, ⟨17, "P7", []⟩]⟩,
    true, some [("gcmcontinue", "b")]⟩

/-- Store inclusion: every row and edge of `s1` is still observable in
`s2` with the same title (stores only grow, and existing rows are never
rewritten). -/
def storeLe (s1 s2 : Store) : Prop :=
  (∀ id v, rowLookup s1.tropes id = some v → rowLookup s2.tropes id = some v) ∧
  (∀ id v, rowLookup s1.categories id = some v → rowLookup s2.categories id = some v) ∧
  (∀ x ∈ s1.members, x ∈ s2.members)

/-- The store already contains everything `upsert_category_members`
would write for one snapshot entry: the member's own id row (in the
table its title classifies it into), every parent's id row, and every
membership edge. -/
def containsEntry (st : Store) (e : Page × List Page) : Prop :=
  (strStarts e.1.2 "Category:" = true → (rowLookup st.categories e.1.1).isSome = true) ∧
  (strStarts e.1.2 "Category:" = false → (rowLookup st.tropes e.1.1).isSome = true) ∧
  ∀ c ∈ e.2, (rowLookup st.categories c.1).isSome = true ∧ (c.1, e.1.1) ∈ st.members

/-- Witness input: a store holding trope 7 ↦ "OldT" and category
100 ↦ "Old". -/
def st8 : Store :=
  ⟨[(7, "OldT")], [(100, "Old")], []⟩

/-- Witness input: a snapshot re-upserting ids 7 and 100 under
different titles. -/
def ms8 : Snapshot :=
  [((7, "NewT"), [(100, "Category:NewName")])]

/-- Witness input: request parameters holding a stale `gcmcontinue`. -/
def p2 : List (String × String) :=
  [("action", "query"), ("gcmcontinue", "X")]

/-- Witness input: a continuation token from a later response. -/
def token2 : List (String × String) :=
  [("clcontinue", "Y")]

/-- Witness input: a lookup response with exactly one non-missing page. -/
def resp9 : AcResp :=
  ⟨some ⟨some [⟨42, "Category:Foo", false⟩]⟩⟩

/-- Witness input: a continuing response contributing `Category:A` to
page `(1, "T1")`. -/
def bodyCont1 : RespBody :=
  ⟨some ⟨some [⟨1, "T1", [⟨"Category:A"⟩]⟩]⟩, false, some [("clcontinue", "c1")]⟩

/-- Witness input: a continuing response contributing `Category:B` to
page `(1, "T1")`. -/
def bodyCont2 : RespBody :=
  ⟨some ⟨some [⟨1, "T1", [⟨"Category:B"⟩]⟩]⟩, false, some [("gcmcontinue", "g1")]⟩

/-- Witness input: a batch-completing response adding page `(2, "T2")`
with no categories and no continuation. -/
def bodyDone : RespBody :=
  ⟨some ⟨some [⟨2, "T2", []⟩]⟩, true, none⟩

theorem paramLookup_updParam (ps : List (String × String))
    (kv : String × String) (k : String) :
    paramLookup (updParam ps kv) k =
      if k = kv.1 then some kv.2 else paramLookup ps k := by
  induction ps with
  | nil =>
    by_cases h : k = kv.1
    · subst h; simp [updParam, paramLookup]
    · have h2 : ¬ kv.1 = k := fun hh => h hh.symm
      simp [updParam, paramLookup, h, h2]
  | cons e rest ih =>
    by_cases he : e.1 = kv.1
    · by_cases hk : k = kv.1
      · have hek : e.1 = k := he.trans hk.symm
        simp [updParam, paramLookup, he, hk, hek]
      · have hek : ¬ e.1 = k := fun hh => hk (hh.symm.trans he)
        have hk2 : ¬ kv.1 = k := fun hh => hk hh.symm
        simp [updParam, paramLookup, he, hk, hek, hk2]
    · by_cases hek : e.1 = k
      · have hk : ¬ k = kv.1 := fun hh => he (hek.trans hh)
        simp [updParam, paramLookup, he, hek, hk]
      · simp [updParam, paramLookup, he, hek, ih]

theorem paramLookup_foldl_updParam (token : List (String × String))
    (k : String) (h : ∀ kv ∈ token, kv.1 ≠ k) (ps : List (String × String)) :
    paramLookup (token.foldl updParam ps) k = paramLookup ps k := by
  induction token generalizing ps with
  | nil => rfl
  | cons kv rest ih =>
    simp only [List.foldl_cons]
    rw [ih (fun x hx => h x (List.mem_cons_of_mem _ hx))]
    rw [paramLookup_updParam]
    rw [if_neg (fun hk => h kv (List.mem_cons_self _ _) hk.symm)]

theorem paramLookup_foldl_token (token : List (String × String))
    (ht : (token.map Prod.fst).Nodup) (kv : String × String)
    (hkv : kv ∈ token) (base : List (String × String)) :
    paramLookup (token.foldl updParam base) kv.1 = some kv.2 := by
  induction token generalizing base with
  | nil => cases hkv
  | cons a rest ih =>
    simp only [List.map_cons, List.nodup_cons] at ht
    rcases List.mem_cons.mp hkv with rfl | hmem
    · simp only [List.foldl_cons]
      rw [paramLookup_foldl_updParam rest kv.1
        (fun x hx hxk => ht.1 (hxk ▸ List.mem_map_of_mem Prod.fst hx))]
      rw [paramLookup_updParam, if_pos rfl]
    · simpa only [List.foldl_cons] using ih ht.2 hmem (updParam base a)

theorem paramLookup_filter_contSuffix (ps : List (String × String))
    (k : String) (h : strEnds k "continue" = true) :
    paramLookup (ps.filter (fun e => !strEnds e.1 "continue")) k = none := by
  induction ps with
  | nil => rfl
  | cons e rest ih =>
    by_cases hkeep : strEnds e.1 "continue"
    · simp [List.filter_cons, hkeep, ih]
    · have hne : ¬ e.1 = k := fun hk => hkeep (hk ▸ h)
      simp [List.filter_cons, hkeep, paramLookup, hne, ih]

theorem mergeContinue_lookup_token (ps token : List (String × String))
    (ht : (token.map Prod.fst).Nodup) (kv : String × String)
    (hkv : kv ∈ token) :
    paramLookup (mergeContinue ps token) kv.1 = some kv.2 :=
  paramLookup_foldl_token token ht kv hkv _

theorem mergeContinue_lookup_stale (ps token : List (String × String))
    (k : String) (hk : strEnds k "continue" = true)
    (hnot : ∀ kv ∈ token, kv.1 ≠ k) :
    paramLookup (mergeContinue ps token) k = none := by
  unfold mergeContinue
  rw [paramLookup_foldl_updParam _ _ hnot]
  exact paramLookup_filter_contSuffix ps k hk

theorem walkAux_reqs_head (resolve : String → Option Page)
    (exclude : List Page) (maxM : Option Int) (resps : List Resp)
    (ms : Snapshot) (n : Nat) (p : List (String × String)) :
    (walkAux resolve exclude maxM resps ms n p).reqs = [] ∨
      (walkAux resolve exclude maxM resps ms n p).reqs.head? = some p := by
  cases resps with
  | nil => exact Or.inl rfl
  | cons r rest =>
    cases r with
    | err =>
      by_cases h : continueLoop maxM n = true <;> simp [walkAux, h]
    | ok b =>
      by_cases h : continueLoop maxM n = true <;>
        cases hb : b.batchcomplete <;> cases hc : b.cont <;>
          simp [walkAux, h, hb, hc]

theorem walkAux_yields_none (resolve : String → Option Page)
    (exclude : List Page) (bodies : List RespBody) :
    ∀ (ms : Snapshot) (n : Nat) (p : List (String × String)),
      (walkAux resolve exclude none (bodies.map Resp.ok) ms n p).yields =
        batchYieldsSpec resolve exclude ms bodies := by
  induction bodies with
  | nil => intro ms n p; rfl
  | cons b rest ih =>
    intro ms n p
    cases hb : b.batchcomplete <;> cases hc : b.cont <;>
      simp [walkAux, batchYieldsSpec, continueLoop, hb, hc, ih]

theorem batchYieldsSpec_cons (resolve : String → Option Page)
    (exclude : List Page) (ms : Snapshot) (b : RespBody)
    (rest : List RespBody) :
    batchYieldsSpec resolve exclude ms (b :: rest) =
      if b.batchcomplete then
        applyBody resolve exclude ms b ::
          (if b.cont.isSome then batchYieldsSpec resolve exclude [] rest else [])
      else
        (if b.cont.isSome then
          batchYieldsSpec resolve exclude (applyBody resolve exclude ms b) rest
        else []) := rfl

theorem batchYieldsSpec_length (resolve : String → Option Page)
    (exclude : List Page) (bodies : List RespBody) :
    ∀ (ms : Snapshot),
      (∀ b ∈ bodies.dropLast, b.cont.isSome = true) →
      (batchYieldsSpec resolve exclude ms bodies).length =
        bodies.countP (fun b => b.batchcomplete) := by
  induction bodies with
  | nil => intro ms _; simp [batchYieldsSpec]
  | cons b rest ih =>
    intro ms hc
    rw [batchYieldsSpec_cons]
    cases rest with
    | nil =>
      cases hb : b.batchcomplete <;> cases hco : b.cont <;>
        simp [hb, hco, List.countP_cons, batchYieldsSpec]
    | cons b' rest' =>
      have hcb : b.cont.isSome = true := by
        apply hc b
        simp [List.dropLast]
      have hrest : ∀ x ∈ (b' :: rest').dropLast, x.cont.isSome = true := by
        intro x hx
        apply hc x
        simp only [List.dropLast]
        exact List.mem_cons_of_mem _ hx
      cases hb : b.batchcomplete
      · simp only [hb, Bool.false_eq_true, if_false, hcb, if_true]
        rw [ih _ hrest, List.countP_cons]
        simp [hb, List.countP_cons]
      · simp only [hb, if_true, hcb, List.length_cons]
        rw [ih _ hrest, List.countP_cons]
        simp [hb, List.countP_cons]

theorem mem_listInsert (xs : List Page) (y x : Page) :
    x ∈ listInsert xs y ↔ x ∈ xs ∨ x = y := by
  unfold listInsert
  split
  · rename_i h
    constructor
    · exact Or.inl
    · rintro (hx | rfl)
      · exact hx
      · exact h
  · simp

theorem mem_listUnion (ys : List Page) :
    ∀ (xs : List Page) (x : Page), x ∈ listUnion xs ys ↔ x ∈ xs ∨ x ∈ ys := by
  induction ys with
  | nil => simp [listUnion]
  | cons y ys ih =>
    intro xs x
    simp only [listUnion, List.foldl_cons]
    have := ih (listInsert xs y) x
    simp only [listUnion] at this
    rw [this, mem_listInsert]
    simp only [List.mem_cons]
    tauto

theorem snapGetD_snapUpdate (ms : Snapshot) :
    ∀ (k : Page) (cs : List Page) (k' : Page),
      snapGetD (snapUpdate ms k cs) k' =
        if k' = k then listUnion (snapGetD ms k) cs else snapGetD ms k' := by
  induction ms with
  | nil =>
    intro k cs k'
    by_cases h : k' = k
    · subst h; simp [snapUpdate, snapGetD]
    · have h2 : ¬ k = k' := fun hh => h hh.symm
      simp [snapUpdate, snapGetD, h, h2]
  | cons e rest ih =>
    intro k cs k'
    by_cases he : e.1 = k
    · by_cases hk : k' = k
      · have hek : e.1 = k' := he.trans hk.symm
        simp [snapUpdate, snapGetD, he, hk, hek]
      · have hek : ¬ e.1 = k' := fun hh => hk (hh.symm.trans he)
        have hk2 : ¬ k = k' := fun hh => hk hh.symm
        simp [snapUpdate, snapGetD, he, hk, hek, hk2]
    · by_cases hek : e.1 = k'
      · have hk : ¬ k' = k := fun hh => he (hek.trans hh)
        simp [snapUpdate, snapGetD, he, hek, hk]
      · simp [snapUpdate, snapGetD, he, hek, ih]

theorem mem_snapGetD_pagesFold (resolve : String → Option Page)
    (exclude : List Page) (pages : List MemberPage) :
    ∀ (ms : Snapshot) (pg x : Page),
      x ∈ snapGetD
          (pages.foldl
            (fun acc q =>
              snapUpdate acc (q.pageid, q.title) (processPage resolve exclude q))
            ms) pg ↔
        x ∈ snapGetD ms pg ∨
          ∃ q ∈ pages, (q.pageid, q.title) = pg ∧ x ∈ processPage resolve exclude q := by
  induction pages with
  | nil => simp
  | cons q qs ih =>
    intro ms pg x
    simp only [List.foldl_cons]
    rw [ih]
    rw [snapGetD_snapUpdate]
    by_cases h : pg = (q.pageid, q.title)
    · subst h
      rw [if_pos rfl, mem_listUnion]
      simp only [List.mem_cons]
      constructor
      · rintro ((hx | hq) | ⟨q', hq', hkey, hx⟩)
        · exact Or.inl hx
        · exact Or.inr ⟨q, Or.inl rfl, rfl, hq⟩
        · exact Or.inr ⟨q', Or.inr hq', hkey, hx⟩
      · rintro (hx | ⟨q', (rfl | hq'), hkey, hx⟩)
        · exact Or.inl (Or.inl hx)
        · exact Or.inl (Or.inr hx)
        · exact Or.inr ⟨q', hq', hkey, hx⟩
    · rw [if_neg h]
      simp only [List.mem_cons]
      constructor
      · rintro (hx | ⟨q', hq', hkey, hx⟩)
        · exact Or.inl hx
        · exact Or.inr ⟨q', Or.inr hq', hkey, hx⟩
      · rintro (hx | ⟨q', (rfl | hq'), hkey, hx⟩)
        · exact Or.inl hx
        · exact absurd hkey.symm h
        · exact Or.inr ⟨q', hq', hkey, hx⟩

theorem mem_snapGetD_applyBody (resolve : String → Option Page)
    (exclude : List Page) (ms : Snapshot) (b : RespBody) (pg x : Page) :
    x ∈ snapGetD (applyBody resolve exclude ms b) pg ↔
      x ∈ snapGetD ms pg ∨ bodyContrib resolve exclude b pg x := by
  unfold applyBody bodyContrib
  exact mem_snapGetD_pagesFold resolve exclude (pagesOf b) ms pg x

theorem mem_snapGetD_bodiesFold (resolve : String → Option Page)
    (exclude : List Page) (bs : List RespBody) :
    ∀ (ms : Snapshot) (pg x : Page),
      x ∈ snapGetD (bs.foldl (applyBody resolve exclude) ms) pg ↔
        x ∈ snapGetD ms pg ∨ ∃ b ∈ bs, bodyContrib resolve exclude b pg x := by
  induction bs with
  | nil => simp
  | cons b bs ih =>
    intro ms pg x
    simp only [List.foldl_cons]
    rw [ih, mem_snapGetD_applyBody]
    simp only [List.mem_cons]
    constructor
    · rintro ((hx | hb) | ⟨b', hb', hx⟩)
      · exact Or.inl hx
      · exact Or.inr ⟨b, Or.inl rfl, hb⟩
      · exact Or.inr ⟨b', Or.inr hb', hx⟩
    · rintro (hx | ⟨b', (rfl | hb'), hx⟩)
      · exact Or.inl (Or.inl hx)
      · exact Or.inl (Or.inr hx)
      · exact Or.inr ⟨b', hb', hx⟩

theorem mem_snapKeys_snapUpdate (ms : Snapshot) :
    ∀ (k : Page) (cs : List Page) (k' : Page),
      k' ∈ snapKeys (snapUpdate ms k cs) ↔ k' ∈ snapKeys ms ∨ k' = k := by
  induction ms with
  | nil => intro k cs k'; simp [snapUpdate, snapKeys, eq_comm]
  | cons e rest ih =>
    intro k cs k'
    by_cases he : e.1 = k
    · subst he
      rw [show snapUpdate (e :: rest) e.1 cs = (e.1, listUnion e.2 cs) :: rest from by
        simp [snapUpdate]]
      simp only [snapKeys, List.map_cons, List.mem_cons]
      tauto
    · simp only [snapUpdate, if_neg he, snapKeys, List.map_cons, List.mem_cons]
      have := ih k cs k'
      simp only [snapKeys] at this
      rw [this]
      tauto

theorem mem_snapKeys_pagesFold (resolve : String → Option Page)
    (exclude : List Page) (pages : List MemberPage) :
    ∀ (ms : Snapshot) (pg : Page),
      pg ∈ snapKeys
          (pages.foldl
            (fun acc q =>
              snapUpdate acc (q.pageid, q.title) (processPage resolve exclude q))
            ms) ↔
        pg ∈ snapKeys ms ∨ ∃ q ∈ pages, (q.pageid, q.title) = pg := by
  induction pages with
  | nil => simp
  | cons q qs ih =>
    intro ms pg
    simp only [List.foldl_cons]
    rw [ih, mem_snapKeys_snapUpdate]
    simp only [List.mem_cons]
    constructor
    · rintro ((hms | hk) | ⟨q', hq', hkey⟩)
      · exact Or.inl hms
      · exact Or.inr ⟨q, Or.inl rfl, hk.symm⟩
      · exact Or.inr ⟨q', Or.inr hq', hkey⟩
    · rintro (hms | ⟨q', (rfl | hq'), hkey⟩)
      · exact Or.inl (Or.inl hms)
      · exact Or.inl (Or.inr hkey.symm)
      · exact Or.inr ⟨q', hq', hkey⟩

theorem mem_snapKeys_bodiesFold (resolve : String → Option Page)
    (exclude : List Page) (bodies : List RespBody) :
    ∀ (ms : Snapshot) (pg : Page),
      pg ∈ snapKeys (bodies.foldl (applyBody resolve exclude) ms) ↔
        pg ∈ snapKeys ms ∨ ∃ b ∈ bodies, ∃ q ∈ pagesOf b, (q.pageid, q.title) = pg := by
  induction bodies with
  | nil => simp
  | cons b bs ih =>
    intro ms pg
    simp only [List.foldl_cons]
    rw [ih]
    have := mem_snapKeys_pagesFold resolve exclude (pagesOf b) ms pg
    simp only [applyBody]
    rw [this]
    simp only [List.mem_cons]
    constructor
    · rintro ((hms | ⟨q, hq, hkey⟩) | ⟨b', hb', hrest⟩)
      · exact Or.inl hms
      · exact Or.inr ⟨b, Or.inl rfl, q, hq, hkey⟩
      · exact Or.inr ⟨b', Or.inr hb', hrest⟩
    · rintro (hms | ⟨b', (rfl | hb'), hrest⟩)
      · exact Or.inl (Or.inl hms)
      · exact Or.inl (Or.inr hrest)
      · exact Or.inr ⟨b', hb', hrest⟩

theorem cteRun_length_le (step : HRow → List HRow) :
    ∀ (n : Nat) (q : List HRow), (cteRun step n q).length ≤ n := by
  intro n
  induction n with
  | zero => intro q; simp [cteRun]
  | succ n ih =>
    intro q
    cases q with
    | nil => simp [cteRun]
    | cons r rest =>
      simp only [cteRun, List.length_cons]
      exact Nat.succ_le_succ (ih _)

theorem rowLookup_append_single (t : List (Nat × String)) (i : Nat)
    (s : String) (id : Nat) :
    rowLookup (t ++ [(i, s)]) id =
      match rowLookup t id with
      | some v => some v
      | none => if i = id then some s else none := by
  induction t with
  | nil => simp [rowLookup]
  | cons r rest ih =>
    by_cases h : r.1 = id <;> simp [rowLookup, h, ih]

theorem rowLookup_upsertRow_stable (t : List (Nat × String)) (i : Nat)
    (s : String) (id : Nat) (v : String) (h : rowLookup t id = some v) :
    rowLookup (upsertRow t i s) id = some v := by
  unfold upsertRow
  cases hfind : rowLookup t i with
  | some w => exact h
  | none => rw [rowLookup_append_single, h]

theorem rowLookup_upsertRow_self (t : List (Nat × String)) (i : Nat)
    (s : String) : (rowLookup (upsertRow t i s) i).isSome = true := by
  unfold upsertRow
  cases hfind : rowLookup t i with
  | some w => simp [hfind]
  | none => rw [rowLookup_append_single, hfind]; simp

theorem upsertRow_of_found (t : List (Nat × String)) (i : Nat) (s : String)
    (h : (rowLookup t i).isSome = true) : upsertRow t i s = t := by
  unfold upsertRow
  rcases Option.isSome_iff_exists.mp h with ⟨v, hv⟩
  rw [hv]

theorem mem_insertEdge_stable (es : List (Nat × Nat)) (c m : Nat)
    (x : Nat × Nat) (h : x ∈ es) : x ∈ insertEdge es c m := by
  unfold insertEdge
  split
  · exact h
  · exact List.mem_append_left _ h

theorem mem_insertEdge_self (es : List (Nat × Nat)) (c m : Nat) :
    (c, m) ∈ insertEdge es c m := by
  unfold insertEdge
  split
  · assumption
  · exact List.mem_append_right _ (List.mem_singleton.mpr rfl)

theorem insertEdge_of_mem (es : List (Nat × Nat)) (c m : Nat)
    (h : (c, m) ∈ es) : insertEdge es c m = es := by
  unfold insertEdge
  rw [if_pos h]

theorem storeLe_refl (st : Store) : storeLe st st :=
  ⟨fun _ _ h => h, fun _ _ h => h, fun _ h => h⟩

theorem storeLe_trans {s1 s2 s3 : Store} (h12 : storeLe s1 s2)
    (h23 : storeLe s2 s3) : storeLe s1 s3 :=
  ⟨fun id v h => h23.1 id v (h12.1 id v h),
   fun id v h => h23.2.1 id v (h12.2.1 id v h),
   fun x h => h23.2.2 x (h12.2.2 x h)⟩

theorem storeLe_upsertParents (mid : Nat) (cats : List Page) :
    ∀ (st : Store), storeLe st (upsertParents mid st cats) := by
  induction cats with
  | nil => intro st; exact storeLe_refl st
  | cons c cats ih =>
    intro st
    refine storeLe_trans ?_ (ih _)
    exact ⟨fun id v h => h,
      fun id v h => rowLookup_upsertRow_stable _ _ _ _ _ h,
      fun x h => mem_insertEdge_stable _ _ _ _ h⟩

theorem storeLe_upsertMember (st : Store) (e : Page × List Page) :
    storeLe st (upsertMember st e) := by
  unfold upsertMember
  refine storeLe_trans ?_ (storeLe_upsertParents _ _ _)
  split
  · exact ⟨fun id v h => h,
      fun id v h => rowLookup_upsertRow_stable _ _ _ _ _ h,
      fun x h => h⟩
  · exact ⟨fun id v h => rowLookup_upsertRow_stable _ _ _ _ _ h,
      fun id v h => h,
      fun x h => h⟩

theorem storeLe_upsert (ms : Snapshot) :
    ∀ (st : Store), storeLe st (upsert_category_members ms st) := by
  induction ms with
  | nil => intro st; exact storeLe_refl st
  | cons e rest ih =>
    intro st
    exact storeLe_trans (storeLe_upsertMember st e) (ih _)

theorem isSome_of_storeLe_cat {s1 s2 : Store} (h : storeLe s1 s2) (id : Nat)
    (hs : (rowLookup s1.categories id).isSome = true) :
    (rowLookup s2.categories id).isSome = true := by
  rcases Option.isSome_iff_exists.mp hs with ⟨v, hv⟩
  rw [h.2.1 id v hv]
  rfl

theorem isSome_of_storeLe_trope {s1 s2 : Store} (h : storeLe s1 s2) (id : Nat)
    (hs : (rowLookup s1.tropes id).isSome = true) :
    (rowLookup s2.tropes id).isSome = true := by
  rcases Option.isSome_iff_exists.mp hs with ⟨v, hv⟩
  rw [h.1 id v hv]
  rfl

theorem containsEntry_mono {s1 s2 : Store} (e : Page × List Page)
    (hc : containsEntry s1 e) (hle : storeLe s1 s2) : containsEntry s2 e := by
  refine ⟨fun hs => isSome_of_storeLe_cat hle _ (hc.1 hs),
    fun hs => isSome_of_storeLe_trope hle _ (hc.2.1 hs),
    fun c hcm => ⟨isSome_of_storeLe_cat hle _ (hc.2.2 c hcm).1,
      hle.2.2 _ (hc.2.2 c hcm).2⟩⟩

theorem upsertParents_contains (mid : Nat) (cats : List Page) :
    ∀ (st : Store) (c : Page), c ∈ cats →
      (rowLookup (upsertParents mid st cats).categories c.1).isSome = true ∧
        (c.1, mid) ∈ (upsertParents mid st cats).members := by
  induction cats with
  | nil => intro st c hc; cases hc
  | cons c0 cats ih =>
    intro st c hc
    rcases List.mem_cons.mp hc with rfl | hmem
    · have hstep : (rowLookup
          ({ st with
            categories := upsertRow st.categories c.1 (removePfx c.2 "Category:"),
            members := insertEdge st.members c.1 mid } : Store).categories c.1).isSome = true ∧
          (c.1, mid) ∈ ({ st with
            categories := upsertRow st.categories c.1 (removePfx c.2 "Category:"),
            members := insertEdge st.members c.1 mid } : Store).members :=
        ⟨rowLookup_upsertRow_self _ _ _, mem_insertEdge_self _ _ _⟩
      have hle := storeLe_upsertParents mid cats
        ({ st with
          categories := upsertRow st.categories c.1 (removePfx c.2 "Category:"),
          members := insertEdge st.members c.1 mid } : Store)
      exact ⟨isSome_of_storeLe_cat hle _ hstep.1, hle.2.2 _ hstep.2⟩
    · exact ih _ c hmem

theorem containsEntry_upsertMember (st : Store) (e : Page × List Page) :
    containsEntry (upsertMember st e) e := by
  unfold upsertMember
  constructor
  · intro hs
    rw [if_pos hs]
    exact isSome_of_storeLe_cat (storeLe_upsertParents _ _ _) _
      (rowLookup_upsertRow_self _ _ _)
  constructor
  · intro hs
    rw [if_neg (by simp [hs])]
    exact isSome_of_storeLe_trope (storeLe_upsertParents _ _ _) _
      (rowLookup_upsertRow_self _ _ _)
  · intro c hc
    split
    · exact upsertParents_contains _ _ _ c hc
    · exact upsertParents_contains _ _ _ c hc

theorem upsertParents_of_contains (mid : Nat) (cats : List Page) :
    ∀ (st : Store),
      (∀ c ∈ cats, (rowLookup st.categories c.1).isSome = true ∧
        (c.1, mid) ∈ st.members) →
      upsertParents mid st cats = st := by
  induction cats with
  | nil => intro st _; rfl
  | cons c0 cats ih =>
    intro st h
    have h0 := h c0 (List.mem_cons_self _ _)
    unfold upsertParents
    simp only [List.foldl_cons]
    rw [upsertRow_of_found _ _ _ h0.1, insertEdge_of_mem _ _ _ h0.2]
    have : ({ st with categories := st.categories, members := st.members } : Store) = st := rfl
    rw [this]
    exact ih st (fun c hc => h c (List.mem_cons_of_mem _ hc))

theorem upsertMember_of_contains (st : Store) (e : Page × List Page)
    (h : containsEntry st e) : upsertMember st e = st := by
  unfold upsertMember
  cases hs : strStarts e.1.2 "Category:"
  · rw [if_neg (by simp)]
    rw [upsertRow_of_found _ _ _ (h.2.1 hs)]
    have heta : ({ st with tropes := st.tropes } : Store) = st := rfl
    rw [heta]
    exact upsertParents_of_contains _ _ _ h.2.2
  · rw [if_pos rfl]
    rw [upsertRow_of_found _ _ _ (h.1 hs)]
    have heta : ({ st with categories := st.categories } : Store) = st := rfl
    rw [heta]
    exact upsertParents_of_contains _ _ _ h.2.2

theorem upsert_contains_all (ms : Snapshot) :
    ∀ (st : Store) (e : Page × List Page), e ∈ ms →
      containsEntry (upsert_category_members ms st) e := by
  induction ms with
  | nil => intro st e he; cases he
  | cons e0 rest ih =>
    intro st e he
    rcases List.mem_cons.mp he with rfl | hmem
    · exact containsEntry_mono e (containsEntry_upsertMember st e)
        (storeLe_upsert rest _)
    · exact ih _ e hmem

theorem upsert_of_contains_all (ms : Snapshot) :
    ∀ (st : Store), (∀ e ∈ ms, containsEntry st e) →
      upsert_category_members ms st = st := by
  induction ms with
  | nil => intro st _; rfl
  | cons e0 rest ih =>
    intro st h
    unfold upsert_category_members
    simp only [List.foldl_cons]
    rw [upsertMember_of_contains st e0 (h e0 (List.mem_cons_self _ _))]
    exact ih st (fun e he => h e (List.mem_cons_of_mem _ he))

theorem foldl_execStmt_parents (mid : Nat) (cats : List Page) :
    ∀ (st : Store),
      (cats.foldr
          (fun c a =>
            Stmt.upCategory c.1 (removePfx c.2 "Category:") :: Stmt.upEdge c.1 mid :: a)
          []).foldl execStmt st = upsertParents mid st cats := by
  induction cats with
  | nil => intro st; rfl
  | cons c cats ih =>
    intro st
    simp only [List.foldr_cons, List.foldl_cons]
    rw [ih]
    rfl

theorem foldl_execStmt_entry (e : Page × List Page) (st : Store) :
    (entryStmts e).foldl execStmt st = upsertMember st e := by
  unfold entryStmts upsertMember
  rw [List.foldl_append]
  cases hs : strStarts e.1.2 "Category:"
  · rw [if_neg (by simp), if_neg (by simp)]
    exact foldl_execStmt_parents _ _ _
  · rw [if_pos rfl, if_pos rfl]
    exact foldl_execStmt_parents _ _ _

theorem foldl_execStmt_entries (ms : Snapshot) :
    ∀ (st : Store),
      (ms.foldr (fun e a => entryStmts e ++ a) []).foldl execStmt st =
        upsert_category_members ms st := by
  induction ms with
  | nil => intro st; rfl
  | cons e rest ih =>
    intro st
    simp only [List.foldr_cons, List.foldl_append]
    rw [foldl_execStmt_entry]
    exact ih _

theorem commit_not_mem_parents (mid : Nat) (cats : List Page) :
    Stmt.commit ∉
      cats.foldr
        (fun c a =>
          Stmt.upCategory c.1 (removePfx c.2 "Category:") :: Stmt.upEdge c.1 mid :: a)
        [] := by
  induction cats with
  | nil => simp
  | cons c cats ih =>
    simp only [List.foldr_cons, List.mem_cons]
    rintro (h | h | h)
    · cases h
    · cases h
    · exact ih h

theorem commit_not_mem_entry (e : Page × List Page) :
    Stmt.commit ∉ entryStmts e := by
  unfold entryStmts
  intro hmem
  rcases List.mem_append.mp hmem with h | h
  · split at h <;> simp at h
  · exact commit_not_mem_parents e.1.1 e.2 h

theorem commit_not_mem_entries (ms : Snapshot) :
    Stmt.commit ∉ ms.foldr (fun e a => entryStmts e ++ a) [] := by
  induction ms with
  | nil => simp
  | cons e rest ih =>
    simp only [List.foldr_cons, List.mem_append]
    rintro (h | h)
    · exact commit_not_mem_entry e h
    · exact ih h

theorem runStmts_ops_commit (f : Nat → Bool) (ops : List Stmt)
    (hnc : Stmt.commit ∉ ops) :
    ∀ (d pend : Store) (i : Nat),
      runStmts f d pend i (ops ++ [Stmt.commit]) = TxnOut.ok (ops.foldl execStmt pend) ∨
        runStmts f d pend i (ops ++ [Stmt.commit]) = TxnOut.err d := by
  induction ops with
  | nil =>
    intro d pend i
    by_cases hf : f i
    · right; simp [runStmts, hf]
    · left; simp [runStmts, hf]
  | cons s ops ih =>
    intro d pend i
    have hs : s ≠ Stmt.commit := fun h => hnc (h ▸ List.mem_cons_self _ _)
    have hops : Stmt.commit ∉ ops := fun h => hnc (List.mem_cons_of_mem _ h)
    by_cases hf : f i
    · right
      cases s <;> simp [runStmts, hf]
    · have hstep :
          runStmts f d pend i ((s :: ops) ++ [Stmt.commit]) =
            runStmts f d (execStmt pend s) (i + 1) (ops ++ [Stmt.commit]) := by
        cases s
        case commit => exact absurd rfl hs
        all_goals simp [runStmts, hf]
      rw [hstep]
      simp only [List.foldl_cons]
      exact ih hops d (execStmt pend s) (i + 1)

theorem walkAux_err_after (resolve : String → Option Page)
    (exclude : List Page) :
    ∀ (bodies : List RespBody),
      (∀ b ∈ bodies, b.cont.isSome = true) →
      ∀ (rest : List Resp) (ms : Snapshot) (n : Nat)
        (p : List (String × String)),
        (walkAux resolve exclude none (bodies.map Resp.ok ++ Resp.err :: rest)
            ms n p).failed = true ∧
        (walkAux resolve exclude none (bodies.map Resp.ok ++ Resp.err :: rest)
            ms n p).yields = batchYieldsSpec resolve exclude ms bodies ∧
        (walkAux resolve exclude none (bodies.map Resp.ok ++ Resp.err :: rest)
            ms n p).reqs.length = bodies.length + 1 := by
  intro bodies
  induction bodies with
  | nil =>
    intro _ rest ms n p
    simp [walkAux, continueLoop, batchYieldsSpec]
  | cons b bodies ih =>
    intro hc rest ms n p
    rcases Option.isSome_iff_exists.mp (hc b (List.mem_cons_self _ _)) with ⟨t, hco⟩
    have hcr : ∀ x ∈ bodies, x.cont.isSome = true :=
      fun x hx => hc x (List.mem_cons_of_mem _ hx)
    cases hb : b.batchcomplete
    · obtain ⟨h1, h2, h3⟩ :=
        ih hcr rest (applyBody resolve exclude ms b) n (mergeContinue p t)
      simp [walkAux, continueLoop, hb, hco, batchYieldsSpec_cons, h1, h2, h3]
    · obtain ⟨h1, h2, h3⟩ := ih hcr rest [] (n + (applyBody resolve exclude ms b).length)
        (mergeContinue p t)
      simp [walkAux, continueLoop, hb, hco, batchYieldsSpec_cons, h1, h2, h3]

/-- C1: for every finite response sequence consumed by `category_members`
(fully consumable: every non-final response continues), a Snapshot is
yielded once and only once per response with `batchcomplete: true` — the
yields are exactly `batchYieldsSpec`, whose length is the number of
batch-completing responses — and each yielded Snapshot maps each member
page to the union of that page's resolved, non-excluded parent-category
sets accumulated over every response since the previous batch completion
(the yield for a batch is the `applyBody` fold over the batch's
responses, and membership in such a fold is the union of the per-response
contributions). -/
theorem claim1_batch_completion_gating (resolve : String → Option Page)
    (exclude : List Page) (category : String) (gl cl : Int)
    (bodies : List RespBody)
    (hc : ∀ b ∈ bodies.dropLast, b.cont.isSome = true) :
    (category_members resolve exclude category none gl cl
        (bodies.map Resp.ok)).yields = batchYieldsSpec resolve exclude [] bodies
    ∧ (batchYieldsSpec resolve exclude [] bodies).length =
        bodies.countP (fun b => b.batchcomplete)
    ∧ ∀ (ms : Snapshot) (bs : List RespBody) (pg x : Page),
        x ∈ snapGetD (bs.foldl (applyBody resolve exclude) ms) pg ↔
          x ∈ snapGetD ms pg ∨ ∃ b ∈ bs, bodyContrib resolve exclude b pg x :=
  ⟨walkAux_yields_none resolve exclude bodies [] 0
      (initialParams category (clampLim gl) (clampLim cl)),
    batchYieldsSpec_length resolve exclude bodies [] hc,
    fun ms bs pg x => mem_snapGetD_bodiesFold resolve exclude bs ms pg x⟩

/-- Witness for C1: three responses (continue, continue, batchcomplete)
yield exactly one Snapshot in which page `(1, "T1")` carries the union of
the two responses' resolved parent sets and page `(2, "T2")` is present
with an empty set. -/
theorem claim1_batch_completion_gating_witness :
    (category_members resolveABX [] "Trope" none 50 20
        ([bodyCont1, bodyCont2, bodyDone].map Resp.ok)).yields =
      batchYieldsSpec resolveABX [] [] [bodyCont1, bodyCont2, bodyDone]
    ∧ batchYieldsSpec resolveABX [] [] [bodyCont1, bodyCont2, bodyDone] =
      [[((1, "T1"), [(100, "Category:A"), (200, "Category:B")]),
        ((2, "T2"), [])]] :=
  ⟨(claim1_batch_completion_gating resolveABX [] "Trope" 50 20
      [bodyCont1, bodyCont2, bodyDone] (by decide)).1,
    by decide⟩

/-- C2: after a response carrying a continuation token, the next
outgoing request's parameters contain every key/value of the token, and
contain no continuation-suffixed key held before the merge (every
previously held key ending in `continue` is dropped before the token is
merged); moreover the walker's next issued request is exactly
`mergeContinue` of the current parameters with the token. -/
theorem claim2_continuation_merge (ps token : List (String × String))
    (ht : (token.map Prod.fst).Nodup) :
    (∀ kv ∈ token, paramLookup (mergeContinue ps token) kv.1 = some kv.2)
    ∧ (∀ k, strEnds k "continue" = true → (∀ kv ∈ token, kv.1 ≠ k) →
        paramLookup (mergeContinue ps token) k = none)
    ∧ ∀ (resolve : String → Option Page) (exclude : List Page)
        (maxM : Option Int) (b : RespBody) (rest : List Resp)
        (ms : Snapshot) (n : Nat) (q : List (String × String)),
        b.cont = some token →
        ((walkAux resolve exclude maxM (Resp.ok b :: rest) ms n ps).reqs.drop 1).head?
          = some q →
        q = mergeContinue ps token := by
  refine ⟨fun kv hkv => mergeContinue_lookup_token ps token ht kv hkv,
    fun k hk hnot => mergeContinue_lookup_stale ps token k hk hnot, ?_⟩
  intro resolve exclude maxM b rest ms n q hcont hq
  by_cases hg : continueLoop maxM n = true
  · cases hb : b.batchcomplete
    · simp only [walkAux, hg, if_true, hb, Bool.false_eq_true, if_false, hcont] at hq
      simp only [List.drop_succ_cons, List.drop_zero] at hq
      rcases walkAux_reqs_head resolve exclude maxM rest
          (applyBody resolve exclude ms b) n (mergeContinue ps token) with hnil | hhead
      · rw [hnil] at hq; cases hq
      · rw [hhead] at hq; exact (Option.some.inj hq).symm
    · simp only [walkAux, hg, if_true, hb, if_true, hcont] at hq
      simp only [List.drop_succ_cons, List.drop_zero] at hq
      rcases walkAux_reqs_head resolve exclude maxM rest []
          (n + (applyBody resolve exclude ms b).length)
          (mergeContinue ps token) with hnil | hhead
      · rw [hnil] at hq; cases hq
      · rw [hhead] at hq; exact (Option.some.inj hq).symm
  · simp [walkAux, hg] at hq

/-- Witness for C2: with held parameters containing `gcmcontinue = X`
and a token `{clcontinue: Y}`, the merged parameters contain
`clcontinue = Y` and do not contain `gcmcontinue`. -/
theorem claim2_continuation_merge_witness :
    (token2.map Prod.fst).Nodup
    ∧ paramLookup (mergeContinue p2 token2) "clcontinue" = some "Y"
    ∧ paramLookup (mergeContinue p2 token2) "gcmcontinue" = none :=
  ⟨by decide,
    (claim2_continuation_merge p2 token2 (by decide)).1 ("clcontinue", "Y") (by decide),
    (claim2_continuation_merge p2 token2 (by decide)).2.1 "gcmcontinue"
      (by decide) (by decide)⟩

/-- C3: `upsert_category_members` is idempotent — for every Snapshot and
every store state, applying the upsert twice leaves the stored relations
(tropes, categories, members) equal to applying it once; re-insertion of
an existing edge and re-upsert of an existing id row are no-ops (the
operations are total, so no error is ever raised). -/
theorem claim3_upsert_idempotent (ms : Snapshot) (st : Store) :
    upsert_category_members ms (upsert_category_members ms st) =
      upsert_category_members ms st :=
  upsert_of_contains_all ms (upsert_category_members ms st)
    (fun e he => upsert_contains_all ms st e he)

/-- C4: one snapshot is applied as a single atomic unit — the statement
trace of `upsert_category_members` ends in its single `commit`, so under
transactional execution (writes durable only at commit, any failing
statement aborting the run) every run either durably records exactly the
whole snapshot (the pure upsert result) or fails with the durable store
unchanged, for every failure pattern. -/
theorem claim4_upsert_atomic (ms : Snapshot) (st : Store) (f : Nat → Bool) :
    runStmts f st st 0 (upsertStmts ms) =
        TxnOut.ok (upsert_category_members ms st)
    ∨ runStmts f st st 0 (upsertStmts ms) = TxnOut.err st := by
  have hnc : Stmt.commit ∉
      ([Stmt.createTropes, Stmt.createCategories, Stmt.createMembers] ++
        ms.foldr (fun e a => entryStmts e ++ a) []) := by
    intro h
    rcases List.mem_append.mp h with h | h
    · simp at h
    · exact commit_not_mem_entries ms h
  have hrun := runStmts_ops_commit f
    ([Stmt.createTropes, Stmt.createCategories, Stmt.createMembers] ++
      ms.foldr (fun e a => entryStmts e ++ a) []) hnc st st 0
  have hshape : upsertStmts ms =
      ([Stmt.createTropes, Stmt.createCategories, Stmt.createMembers] ++
        ms.foldr (fun e a => entryStmts e ++ a) []) ++ [Stmt.commit] := by
    unfold upsertStmts
    rw [List.append_assoc]
  rw [hshape]
  have hfold :
      (([Stmt.createTropes, Stmt.createCategories, Stmt.createMembers] ++
        ms.foldr (fun e a => entryStmts e ++ a) []).foldl execStmt st) =
        upsert_category_members ms st := by
    rw [List.foldl_append]
    exact foldl_execStmt_entries ms st
  rw [hfold] at hrun
  exact hrun

/-- C8: re-upserting an id that is already present with a different
title raises no error (the operation is total) and leaves the stored
title equal to the previously stored one, for both the `categories` and
the `tropes` tables, across an entire snapshot upsert. -/
theorem claim8_first_title_wins (ms : Snapshot) (st : Store) (id : Nat)
    (t : String) :
    (rowLookup st.categories id = some t →
      rowLookup (upsert_category_members ms st).categories id = some t)
    ∧ (rowLookup st.tropes id = some t →
      rowLookup (upsert_category_members ms st).tropes id = some t) :=
  ⟨fun h => (storeLe_upsert ms st).2.1 id t h,
    fun h => (storeLe_upsert ms st).1 id t h⟩

/-- Witness for C8: a store holding category `100 ↦ "Old"` and trope
`7 ↦ "OldT"`, upserted with a snapshot carrying different titles for
both ids, still holds the original titles. -/
theorem claim8_first_title_wins_witness :
    rowLookup st8.categories 100 = some "Old"
    ∧ rowLookup (upsert_category_members ms8 st8).categories 100 = some "Old"
    ∧ rowLookup (upsert_category_members ms8 st8).tropes 7 = some "OldT" :=
  ⟨by decide,
    (claim8_first_title_wins ms8 st8 100 "Old").1 (by decide),
    (claim8_first_title_wins ms8 st8 7 "OldT").2 (by decide)⟩

/-- C5: once the running total of yielded members reaches or exceeds a
positive `max_members`, the walker issues no further request (the loop
exits immediately: no request parameters are recorded, nothing is
yielded); and when `max_members` is non-positive it is normalized to
`None`, so the walker imposes no bound at all (it behaves identically to
the unbounded walker). -/
theorem claim5_member_cap :
    (∀ (resolve : String → Option Page) (exclude : List Page) (m : Int)
        (resps : List Resp) (ms : Snapshot) (n : Nat)
        (p : List (String × String)),
        m ≤ (n : Int) →
        walkAux resolve exclude (some m) resps ms n p = ⟨[], [], false⟩)
    ∧ (∀ (resolve : String → Option Page) (exclude : List Page)
        (category : String) (m : Int) (gl cl : Int) (resps : List Resp),
        m ≤ 0 →
        category_members resolve exclude category (some m) gl cl resps =
          category_members resolve exclude category none gl cl resps) := by
  constructor
  · intro resolve exclude m resps ms n p h
    have hg : ¬ continueLoop (some m) n = true := by
      simp only [continueLoop, decide_eq_true_eq, not_lt]
      exact h
    cases resps with
    | nil => rfl
    | cons r rest =>
      cases r with
      | err => simp [walkAux, hg]
      | ok b => simp [walkAux, hg]
  · intro resolve exclude category m gl cl resps h
    unfold category_members
    rw [show normalizeMax (some m) = none from by simp [normalizeMax, h]]
    rfl

/-- Witness for C5: with `max_members = 5` and completed batches of
sizes 3 then 4, both batches are yielded and only two requests are
issued (the third available response is never consumed); a walker state
whose running total 7 already exceeds the cap 5 issues no request at
all; and `max_members = -3` behaves exactly like `None`. -/
theorem claim5_member_cap_witness :
    (category_members resolveABX [] "C" (some 5) 50 20
        ([batch3, batch4, batch3].map Resp.ok)).yields.length = 2
    ∧ (category_members resolveABX [] "C" (some 5) 50 20
        ([batch3, batch4, batch3].map Resp.ok)).reqs.length = 2
    ∧ walkAux resolveABX [] (some 5) ([batch3].map Resp.ok) [] 7 [] =
        ⟨[], [], false⟩
    ∧ category_members resolveABX [] "C" (some (-3)) 50 20
        ([bodyDone].map Resp.ok) =
      category_members resolveABX [] "C" none 50 20 ([bodyDone].map Resp.ok) :=
  ⟨by decide, by decide,
    claim5_member_cap.1 resolveABX [] 5 ([batch3].map Resp.ok) [] 7 [] (by decide),
    claim5_member_cap.2 resolveABX [] "C" (-3) 50 20 ([bodyDone].map Resp.ok)
      (by decide)⟩

/-- C6: the hierarchy resolver `show_hierachy2` with row budget `limit`
returns at most `limit` materialized rows for every stored edge relation
(cyclic ones included — the recursion is bounded by the budget alone,
which is also what makes the expansion terminate). -/
theorem claim6_hierarchy_cap (st : Store) (limit min_members : Nat) :
    (show_hierachy2 st limit min_members).length ≤ limit :=
  cteRun_length_le (hStep st) limit (rootRows st min_members)

/-- Counterexample to C7 as stated: a syntactically valid JSON response
whose body lacks the `query` field does NOT propagate as an error — the
walker consumes it (one request), yields nothing, and terminates
normally (`failed = false`), because the source merely prints the body
and continues to the `batchcomplete`/`continue` checks. -/
theorem claim7_counterexample :
    (category_members resolveNone [] "X" none 50 20
        [Resp.ok ⟨none, false, none⟩]).failed = false
    ∧ (category_members resolveNone [] "X" none 50 20
        [Resp.ok ⟨none, false, none⟩]).reqs.length = 1
    ∧ (category_members resolveNone [] "X" none 50 20
        [Resp.ok ⟨none, false, none⟩]).yields = [] :=
  ⟨rfl, rfl, rfl⟩

/-- C7 (amended): a transport failure or JSON-decode failure (an
exception from `urlopen`/`json.loads`) propagates as an error to the
caller of the sequence, with no internal retry (the failing request is
consumed exactly once and no later response is touched) and no partial
snapshot committed (the yields are exactly the completed batches that
preceded the failure); a decoded response merely lacking `query` is not
an error. -/
theorem claim7_error_propagation (resolve : String → Option Page)
    (exclude : List Page) (bodies : List RespBody) (rest : List Resp)
    (ms : Snapshot) (n : Nat) (p : List (String × String))
    (hc : ∀ b ∈ bodies, b.cont.isSome = true) :
    (walkAux resolve exclude none (bodies.map Resp.ok ++ Resp.err :: rest)
        ms n p).failed = true
    ∧ (walkAux resolve exclude none (bodies.map Resp.ok ++ Resp.err :: rest)
        ms n p).yields = batchYieldsSpec resolve exclude ms bodies
    ∧ (walkAux resolve exclude none (bodies.map Resp.ok ++ Resp.err :: rest)
        ms n p).reqs.length = bodies.length + 1 :=
  walkAux_err_after resolve exclude bodies hc rest ms n p

/-- Witness for C7 (amended): one continuing response followed by a
transport failure — the run fails, yields nothing (the in-flight batch
was never completed), and consumed exactly two requests. -/
theorem claim7_error_propagation_witness :
    (walkAux resolveABX [] none ([bodyCont1].map Resp.ok ++ Resp.err :: [])
        [] 0 []).failed = true
    ∧ (walkAux resolveABX [] none ([bodyCont1].map Resp.ok ++ Resp.err :: [])
        [] 0 []).yields = batchYieldsSpec resolveABX [] [] [bodyCont1]
    ∧ (walkAux resolveABX [] none ([bodyCont1].map Resp.ok ++ Resp.err :: [])
        [] 0 []).reqs.length = 2 :=
  claim7_error_propagation resolveABX [] [bodyCont1] [] [] 0 [] (by decide)

/-- C9: `category_page` sends exactly one remote query whose from/to
range is exactly the requested name (`gacfrom = gacto = name`), and
returns `none` if and only if the remote result set is empty (which
covers an absent `query` or `pages`), contains more than one match, or
the single match is marked missing; otherwise it returns the
`(pageid, title)` of the single match. -/
theorem claim9_category_page (category : String) (resp : AcResp) :
    (paramLookup (category_page_params category) "gacfrom" = some category
      ∧ paramLookup (category_page_params category) "gacto" = some category)
    ∧ (category_page resp = none ↔
        acResultSet resp = [] ∨ 1 < (acResultSet resp).length
          ∨ ∃ p, acResultSet resp = [p] ∧ p.missing = true)
    ∧ (∀ p, acResultSet resp = [p] → p.missing = false →
        category_page resp = some (p.pageid, p.title)) := by
  have hparams1 :
      paramLookup (category_page_params category) "gacfrom" = some category := by
    simp [category_page_params, paramLookup]
  have hparams2 :
      paramLookup (category_page_params category) "gacto" = some category := by
    simp [category_page_params, paramLookup]
  obtain ⟨oq⟩ := resp
  cases oq with
  | none =>
    refine ⟨⟨hparams1, hparams2⟩, ?_, ?_⟩
    · simp [category_page, acResultSet]
    · intro p hp hm
      simp [acResultSet] at hp
  | some qq =>
    obtain ⟨op⟩ := qq
    cases op with
    | none =>
      refine ⟨⟨hparams1, hparams2⟩, ?_, ?_⟩
      · simp [category_page, acResultSet]
      · intro p hp hm
        simp [acResultSet] at hp
    | some pages =>
      cases pages with
      | nil =>
        refine ⟨⟨hparams1, hparams2⟩, ?_, ?_⟩
        · simp [category_page, acResultSet]
        · intro p hp hm
          simp [acResultSet] at hp
      | cons p0 ps =>
        cases ps with
        | nil =>
          refine ⟨⟨hparams1, hparams2⟩, ?_, ?_⟩
          · cases hm : p0.missing
            · simp [category_page, acResultSet, hm]
            · simp [category_page, acResultSet, hm]
          · intro p hp hm
            simp only [acResultSet, Option.getD_some, List.cons.injEq,
              and_true] at hp
            subst hp
            simp [category_page, hm]
        | cons p1 ps1 =>
          refine ⟨⟨hparams1, hparams2⟩, ?_, ?_⟩
          · simp [category_page, acResultSet]
          · intro p hp hm
            simp [acResultSet] at hp

/-- Witness for C9: a response with exactly one non-missing page
resolves to that page's `(pageid, title)` pair. -/
theorem claim9_category_page_witness :
    acResultSet resp9 = [⟨42, "Category:Foo", false⟩]
    ∧ category_page resp9 = some (42, "Category:Foo") :=
  ⟨by decide,
    (claim9_category_page "Foo" resp9).2.2 ⟨42, "Category:Foo", false⟩
      (by decide) (by decide)⟩

/-- C10: every member page that appears in the `query.pages` list of any
response of a batch is present as a key of the batch's accumulated
Snapshot (the fold of `applyBody` over the batch's responses, which by
C1 is exactly what is yielded), even when its resolved parent-category
set is empty. -/
theorem claim10_member_keys (resolve : String → Option Page)
    (exclude : List Page) (ms : Snapshot) (bodies : List RespBody)
    (pg : Page)
    (h : ∃ b ∈ bodies, ∃ q ∈ pagesOf b, (q.pageid, q.title) = pg) :
    pg ∈ snapKeys (bodies.foldl (applyBody resolve exclude) ms) :=
  (mem_snapKeys_bodiesFold resolve exclude bodies ms pg).mpr (Or.inr h)

/-- Witness for C10: the page `(2, "T2")`, which carries no categories,
is a key of the snapshot accumulated from `bodyDone`, with an empty
parent set. -/
theorem claim10_member_keys_witness :
    (2, "T2") ∈ snapKeys ([bodyDone].foldl (applyBody resolveABX []) [])
    ∧ snapGetD ([bodyDone].foldl (applyBody resolveABX []) []) (2, "T2") = [] :=
  ⟨claim10_member_keys resolveABX [] [] [bodyDone] (2, "T2") (by decide),
    by decide⟩
